import Mathlib

/-
Verification of the algorithm layer of the duoyinzi multi-criteria decision
analysis engine: lower-bound fuzzy membership functions, TOPSIS and VIKOR
aggregation, and binary-semantic grade assessment.

The Python source operates on floats and numpy arrays; the embedding models
scalar arithmetic exactly, with rationals where every operation is rational
and with reals where a square root occurs.  Dictionary-valued operations
(one matrix per evaluation object) are modelled per object: the source
iterates objects independently, so every per-object fact lifts pointwise.
-/

/-- Strictly decreasing list of level thresholds, the invariant assumed for
`level_params` throughout the membership module. -/
def strictlyDecreasing : List ℚ → Prop
  | [] => True
  | [_] => True
  | a :: b :: t => b < a ∧ strictlyDecreasing (b :: t)

/-- Decision procedure for `strictlyDecreasing`, structured so that the
kernel can evaluate it on concrete lists. -/
def strictlyDecreasingDec : (l : List ℚ) → Decidable (strictlyDecreasing l)
  | [] => isTrue trivial
  | [_] => isTrue trivial
  | a :: b :: t =>
    match strictlyDecreasingDec (b :: t) with
    | isTrue hrest =>
      if hba : b < a then isTrue ⟨hba, hrest⟩
      else isFalse (fun hc => hba hc.1)
    | isFalse hrest => isFalse (fun hc => hrest hc.2)

instance : DecidablePred strictlyDecreasing := strictlyDecreasingDec

/-- Embedding of
`LowerBoundMembershipFunctions.lower_bound_level_membership`
(src/modules/algorithm_layer/membership_functions.py, scalar branch).
The two `raise ValueError` guards become `Except.error`; after the guards all
list indices used by the source are in range, so `getD` with default 0 agrees
with Python indexing.  Branch order and conditions mirror the source exactly,
including the `a_next = level_params[1] if total_levels > 1 else 0` fallback
and the corrected last-level rule (`x <= 0` gives membership 1). -/
def lower_bound_level_membership (x : ℚ) (level_params : List ℚ)
    (level_index total_levels : ℕ) : Except String ℚ :=
  if level_index < 1 ∨ total_levels < level_index then
    Except.error "level index must be between 1 and total levels"
  else if level_params.length ≠ total_levels then
    Except.error "level parameter count must equal total levels"
  else
    let a_current := level_params.getD (level_index - 1) 0
    if level_index = 1 then
      let a_next := if 1 < total_levels then level_params.getD 1 0 else 0
      if a_current ≤ x then Except.ok 1
      else if a_next ≤ x ∧ x < a_current then
        Except.ok ((x - a_next) / (a_current - a_next))
      else Except.ok 0
    else if level_index = total_levels then
      let a_prev := level_params.getD (level_index - 2) 0
      if a_prev ≤ x then Except.ok (if 0 < x then a_prev / x else 0)
      else if a_current ≤ x ∧ x < a_prev then Except.ok 1
      else if x ≤ 0 then Except.ok 1
      else Except.ok (if 0 < a_current then x / a_current else 0)
    else
      let a_prev := level_params.getD (level_index - 2) 0
      let a_next := level_params.getD level_index 0
      if a_prev ≤ x then Except.ok (if 0 < x then a_prev / x else 0)
      else if a_current ≤ x ∧ x < a_prev then Except.ok 1
      else if a_next ≤ x ∧ x < a_current then
        Except.ok ((x - a_next) / (a_current - a_next))
      else Except.ok 0

/-- Level-1 piecewise formula as the specification states it
(spec section 4.2, level 1). -/
def specLevelFirst (a1 a2 x : ℚ) : ℚ :=
  if a1 ≤ x then 1
  else if a2 ≤ x ∧ x < a1 then (x - a2) / (a1 - a2)
  else 0

/-- Middle-level piecewise formula as the specification states it
(spec section 4.2, middle level i with boundaries a_prev, a_cur, a_next). -/
def specLevelMiddle (aprev acur anext x : ℚ) : ℚ :=
  if aprev ≤ x then (if 0 < x then aprev / x else 0)
  else if acur ≤ x ∧ x < aprev then 1
  else if anext ≤ x ∧ x < acur then (x - anext) / (acur - anext)
  else 0

/-- Last-level piecewise formula as the specification states it
(spec section 4.2, level h, including the x ≤ 0 carve-out). -/
def specLevelLast (aprev acur x : ℚ) : ℚ :=
  if aprev ≤ x then (if 0 < x then aprev / x else 0)
  else if acur ≤ x ∧ x < aprev then 1
  else if x ≤ 0 then 1
  else if 0 < acur then x / acur else 0

/-- C1: for every strictly decreasing threshold list and every x, the
membership function computes exactly the specification's piecewise formulas
for the first, middle and last levels. -/
theorem c1_membership_matches_spec (x : ℚ) (params : List ℚ) (i n : ℕ)
    (hsd : strictlyDecreasing params) (hlen : params.length = n)
    (hi1 : 1 ≤ i) (hin : i ≤ n) (hn2 : 2 ≤ n) :
    lower_bound_level_membership x params i n = Except.ok
      (if i = 1 then specLevelFirst (params.getD 0 0) (params.getD 1 0) x
       else if i = n then
         specLevelLast (params.getD (n - 2) 0) (params.getD (n - 1) 0) x
       else
         specLevelMiddle (params.getD (i - 2) 0) (params.getD (i - 1) 0)
           (params.getD i 0) x) := by
  have hguard : ¬ (i < 1 ∨ n < i) := by omega
  have h1n : 1 < n := by omega
  simp only [lower_bound_level_membership, specLevelFirst, specLevelMiddle,
    specLevelLast]
  rw [if_neg hguard, if_neg (by omega : ¬ params.length ≠ n)]
  by_cases hi : i = 1
  · subst hi
    simp only [eq_self_iff_true, if_true, if_pos h1n]
    split_ifs <;> rfl
  · rw [if_neg hi, if_neg hi]
    by_cases hlast : i = n
    · subst hlast
      simp only [eq_self_iff_true, if_true]
      split_ifs <;> rfl
    · rw [if_neg hlast, if_neg hlast]
      split_ifs <;> rfl

/-- Witness for C1: thresholds [15,10,5,2], level 2 of 4, x = 7 falls in the
interpolated segment and yields (7-5)/(10-5) = 2/5. -/
theorem c1_membership_matches_spec_witness :
    strictlyDecreasing [15, 10, 5, 2] ∧
    lower_bound_level_membership 7 [15, 10, 5, 2] 2 4 = Except.ok (2 / 5) := by
  refine ⟨by decide, ?_⟩
  have := c1_membership_matches_spec 7 [15, 10, 5, 2] 2 4 (by decide) rfl
    (by decide) (by decide) (by decide)
  rw [this]
  norm_num [specLevelMiddle]

/-- Embedding of the per-object body of
`GradeComprehensiveAssessment.calculate_level_characteristic_values`
(src/modules/algorithm_layer/grade_comprehensive_assessment.py):
the loop `for k, u_jk in enumerate(u_vector, start=1): v_value += k * u_jk`,
written as a fold with the running index `k`. -/
def charValueFrom (k : ℕ) : List ℚ → ℚ
  | [] => 0
  | u :: rest => k * u + charValueFrom (k + 1) rest

/-- Level characteristic value of one membership vector (formula 4-32). -/
def calculate_level_characteristic_values (u_vector : List ℚ) : ℚ :=
  charValueFrom 1 u_vector

/-- Python's builtin `round` on an exact rational: nearest integer with ties
going to the even integer. -/
def pythonRound (q : ℚ) : ℤ :=
  let n := ⌊q⌋
  let r := q - n
  if r < 1 / 2 then n
  else if 1 / 2 < r then n + 1
  else if n % 2 = 0 then n else n + 1

/-- Embedding of the per-object body of
`GradeComprehensiveAssessment.perform_binary_semantic_assessment`:
`k = round(v)`, clamp `k = max(1, min(k, num_levels))`, `alpha = v - k`. -/
def perform_binary_semantic_assessment (v_value : ℚ) (num_levels : ℕ) :
    ℤ × ℚ :=
  let k := pythonRound v_value
  let k2 := max 1 (min k (num_levels : ℤ))
  (k2, v_value - k2)

/-- Numeric core of `GradeComprehensiveAssessment.assess_comprehensive_grade`
for one object: characteristic value followed by the binary-semantic pair
(the source additionally formats a text report, which carries no numeric
content). -/
def assess_comprehensive_grade (u_vector : List ℚ) (num_levels : ℕ) :
    ℚ × ℤ × ℚ :=
  let v := calculate_level_characteristic_values u_vector
  (v, perform_binary_semantic_assessment v num_levels)

/-- Accumulating enumerate-loop equals the index-weighted finite sum. -/
theorem charValueFrom_eq_sum (u : List ℚ) : ∀ k : ℕ,
    charValueFrom k u =
      ∑ j in Finset.range u.length, ((k : ℚ) + j) * u.getD j 0 := by
  induction u with
  | nil => intro k; simp [charValueFrom]
  | cons a t ih =>
    intro k
    rw [List.length_cons, Finset.sum_range_succ', charValueFrom, ih (k + 1)]
    simp only [List.getD_cons_succ, List.getD_cons_zero, Nat.cast_add,
      Nat.cast_one, Nat.cast_zero]
    rw [add_comm]
    congr 1
    · apply Finset.sum_congr rfl
      intro j _
      ring
    · ring

/-- Characterisation of `pythonRound`: it is within 1/2 of its argument, and
an exact half-tie lands on an even integer. -/
theorem pythonRound_nearest (q : ℚ) :
    |q - pythonRound q| ≤ 1 / 2 ∧
      (|q - pythonRound q| = 1 / 2 → 2 ∣ pythonRound q) := by
  have h0 : (⌊q⌋ : ℚ) ≤ q := Int.floor_le q
  have h1 : q < ⌊q⌋ + 1 := Int.lt_floor_add_one q
  simp only [pythonRound]
  split_ifs with hlt hgt heven
  · constructor
    · rw [abs_of_nonneg (by linarith)]; linarith
    · intro habs
      rw [abs_of_nonneg (by linarith)] at habs
      linarith
  · constructor
    · rw [abs_of_nonpos (by push_cast; linarith)]
      push_cast
      linarith
    · intro habs
      rw [abs_of_nonpos (by push_cast; linarith)] at habs
      push_cast at habs
      linarith
  · have hr : q - ⌊q⌋ = 1 / 2 := by linarith
    constructor
    · rw [abs_of_nonneg (by linarith)]; linarith
    · intro _
      omega
  · have hr : q - ⌊q⌋ = 1 / 2 := by linarith
    constructor
    · rw [abs_of_nonpos (by push_cast; linarith)]
      push_cast
      linarith
    · intro _
      omega

/-- C4: grade assessment returns the expectation characteristic value, the
round-half-to-even level clamped to [1, numLevels], and the signed offset
computed against the clamped level. -/
theorem c4_grade_assessment_spec (u : List ℚ) (n : ℕ)
    (hne : u ≠ []) (hn : n = u.length) :
    calculate_level_characteristic_values u =
      ∑ j in Finset.range n, ((j : ℚ) + 1) * u.getD j 0
    ∧ assess_comprehensive_grade u n =
        (calculate_level_characteristic_values u,
         max 1 (min (pythonRound (calculate_level_characteristic_values u))
           (n : ℤ)),
         calculate_level_characteristic_values u -
           max 1 (min (pythonRound (calculate_level_characteristic_values u))
             (n : ℤ)))
    ∧ (∀ q : ℚ, |q - pythonRound q| ≤ 1 / 2 ∧
         (|q - pythonRound q| = 1 / 2 → 2 ∣ pythonRound q))
    ∧ 1 ≤ max 1 (min (pythonRound (calculate_level_characteristic_values u))
        (n : ℤ))
    ∧ max 1 (min (pythonRound (calculate_level_characteristic_values u))
        (n : ℤ)) ≤ (n : ℤ) := by
  have hn1 : 1 ≤ n := by
    cases u with
    | nil => exact absurd rfl hne
    | cons a t => simp [hn]
  refine ⟨?_, rfl, pythonRound_nearest, le_max_left _ _, ?_⟩
  · rw [calculate_level_characteristic_values, charValueFrom_eq_sum u 1, hn]
    apply Finset.sum_congr rfl
    intro j _
    push_cast
    ring
  · have hcast : (1 : ℤ) ≤ (n : ℤ) := by exact_mod_cast hn1
    omega

/-- Witness for C4: the uniform vector [1/4,1/4,1/4,1/4] has characteristic
value 5/2; the 2.5 tie rounds to the even level 2, offset +1/2. -/
theorem c4_grade_assessment_spec_witness :
    ([(1 : ℚ)/4, 1/4, 1/4, 1/4] ≠ ([] : List ℚ)) ∧
    assess_comprehensive_grade [1/4, 1/4, 1/4, 1/4] 4 = (5/2, 2, 1/2) := by
  refine ⟨by simp, ?_⟩
  have h := (c4_grade_assessment_spec [1/4, 1/4, 1/4, 1/4] 4
    (by simp) rfl).2.1
  have hv : calculate_level_characteristic_values [(1 : ℚ)/4, 1/4, 1/4, 1/4] =
      5/2 := by
    norm_num [calculate_level_characteristic_values, charValueFrom]
  have hfloor : ⌊(5/2 : ℚ)⌋ = 2 := by norm_num [Int.floor_eq_iff]
  have hround : pythonRound (5/2) = 2 := by
    simp only [pythonRound, hfloor]
    norm_num
  rw [h, hv, hround]
  norm_num

/-- C5 counterexample: the exact characteristic value of
[0.382, 0.297, 0.205, 0.116] is 2.055, not the 2.056 the claim states. -/
theorem c5_counterexample :
    calculate_level_characteristic_values [0.382, 0.297, 0.205, 0.116] = 2.055
    ∧ (2.055 : ℚ) ≠ 2.056 := by
  refine ⟨?_, by norm_num⟩
  norm_num [calculate_level_characteristic_values, charValueFrom]

/-- C5 amended: the vector [0.382, 0.297, 0.205, 0.116] yields characteristic
value 2.055, level 2 and offset +0.055. -/
theorem c5_amended_assessment :
    assess_comprehensive_grade [0.382, 0.297, 0.205, 0.116] 4 =
      (2.055, 2, 0.055) := by
  have hv : calculate_level_characteristic_values [0.382, 0.297, 0.205, 0.116]
      = 2.055 := by
    norm_num [calculate_level_characteristic_values, charValueFrom]
  have hfloor : ⌊(2.055 : ℚ)⌋ = 2 := by norm_num [Int.floor_eq_iff]
  have hround : pythonRound 2.055 = 2 := by
    simp only [pythonRound, hfloor]
    norm_num
  simp only [assess_comprehensive_grade, perform_binary_semantic_assessment,
    hv, hround]
  norm_num

/-- C9 counterexample: an empty membership vector is not rejected; grade
assessment returns characteristic value 0, clamped level 1, offset -1. -/
theorem c9_counterexample :
    assess_comprehensive_grade [] 4 = (0, 1, -1) := by
  have hr : pythonRound 0 = 0 := by norm_num [pythonRound]
  simp [assess_comprehensive_grade, calculate_level_characteristic_values,
    charValueFrom, perform_binary_semantic_assessment, hr]

/-- C9 amended: the source performs no emptiness or length validation; for
every configured level count the empty vector yields (0, 1, -1). -/
theorem c9_no_validation (n : ℕ) :
    assess_comprehensive_grade [] n = (0, 1, -1) := by
  have hr : pythonRound 0 = 0 := by norm_num [pythonRound]
  have hmin : min (0 : ℤ) (n : ℤ) = 0 := min_eq_left (Int.ofNat_nonneg n)
  simp [assess_comprehensive_grade, calculate_level_characteristic_values,
    charValueFrom, perform_binary_semantic_assessment, hr, hmin]

/-- Tail of a strictly decreasing list is strictly decreasing. -/
theorem strictlyDecreasing_tail {a : ℚ} {l : List ℚ}
    (h : strictlyDecreasing (a :: l)) : strictlyDecreasing l := by
  cases l with
  | nil => trivial
  | cons b t => exact h.2

/-- Every element after the head of a strictly decreasing list is below the
head. -/
theorem strictlyDecreasing_head_gt {a : ℚ} {l : List ℚ}
    (h : strictlyDecreasing (a :: l)) : ∀ x ∈ l, x < a := by
  induction l generalizing a with
  | nil => intro x hx; cases hx
  | cons b t ih =>
    intro x hx
    rcases List.mem_cons.mp hx with rfl | hxt
    · exact h.1
    · exact lt_trans (ih h.2 x hxt) h.1

/-- In-range `getD` lookups are members of the list. -/
theorem getD_mem_of_lt (l : List ℚ) (k : ℕ) (hk : k < l.length) :
    l.getD k 0 ∈ l := by
  induction l generalizing k with
  | nil => simp at hk
  | cons a t ih =>
    cases k with
    | zero => simp
    | succ m =>
      simp only [List.getD_cons_succ]
      exact List.mem_cons_of_mem _ (ih m (by simpa using hk))

/-- Positional comparison along a strictly decreasing list. -/
theorem sd_getD_lt (l : List ℚ) (hsd : strictlyDecreasing l) :
    ∀ j k : ℕ, j < k → k < l.length → l.getD k 0 < l.getD j 0 := by
  induction l with
  | nil => intro j k _ hk; simp at hk
  | cons a t ih =>
    intro j k hjk hk
    cases j with
    | zero =>
      cases k with
      | zero => omega
      | succ m =>
        simp only [List.getD_cons_succ, List.getD_cons_zero]
        exact strictlyDecreasing_head_gt hsd _
          (getD_mem_of_lt t m (by simpa using hk))
    | succ j0 =>
      cases k with
      | zero => omega
      | succ m =>
        simp only [List.getD_cons_succ]
        exact ih (strictlyDecreasing_tail hsd) j0 m (by omega)
          (by simpa using hk)

/-- Range of the membership function: with strictly decreasing nonnegative
thresholds, every level membership value lies in [0, 1]. -/
theorem membership_range (x : ℚ) (params : List ℚ) (i n : ℕ)
    (hsd : strictlyDecreasing params) (hnn : ∀ a ∈ params, 0 ≤ a)
    (hlen : params.length = n) (hi1 : 1 ≤ i) (hin : i ≤ n) :
    ∃ y, lower_bound_level_membership x params i n = Except.ok y ∧
      0 ≤ y ∧ y ≤ 1 := by
  have hguard : ¬ (i < 1 ∨ n < i) := by omega
  simp only [lower_bound_level_membership]
  rw [if_neg hguard, if_neg (by omega : ¬ params.length ≠ n)]
  by_cases hi : i = 1
  · subst hi
    simp only [eq_self_iff_true, if_true]
    by_cases h1n : 1 < n
    · rw [if_pos h1n]
      split_ifs with hx1 hx2
      · exact ⟨1, rfl, by norm_num⟩
      · have ha01 : params.getD 1 0 < params.getD 0 0 :=
          sd_getD_lt params hsd 0 1 (by omega) (by omega)
        refine ⟨_, rfl, div_nonneg (by linarith [hx2.1]) (by linarith), ?_⟩
        rw [div_le_one (by linarith)]
        linarith [hx2.2]
      · exact ⟨0, rfl, by norm_num⟩
    · rw [if_neg h1n]
      split_ifs with hx1 hx2
      · exact ⟨1, rfl, by norm_num⟩
      · have ha0 : (0 : ℚ) < params.getD 0 0 := lt_of_le_of_lt hx2.1 hx2.2
        refine ⟨_, rfl, div_nonneg (by linarith [hx2.1]) (by linarith), ?_⟩
        rw [div_le_one (by linarith)]
        linarith [hx2.2]
      · exact ⟨0, rfl, by norm_num⟩
  · rw [if_neg hi]
    have hi2 : 2 ≤ i := by omega
    by_cases hlast : i = n
    · subst hlast
      simp only [eq_self_iff_true, if_true]
      have hpp : params.getD (i - 1) 0 < params.getD (i - 2) 0 :=
        sd_getD_lt params hsd (i - 2) (i - 1) (by omega) (by omega)
      have hc0 : (0 : ℚ) ≤ params.getD (i - 1) 0 :=
        hnn _ (getD_mem_of_lt params (i - 1) (by omega))
      have hp0 : (0 : ℚ) < params.getD (i - 2) 0 := lt_of_le_of_lt hc0 hpp
      split_ifs with hxp hx0 hmid hneg hcur
      · refine ⟨_, rfl, div_nonneg (by linarith) (by linarith), ?_⟩
        rw [div_le_one hx0]
        exact hxp
      · exact ⟨0, rfl, by norm_num⟩
      · exact ⟨1, rfl, by norm_num⟩
      · exact ⟨1, rfl, by norm_num⟩
      · have hxpos : (0 : ℚ) < x := by linarith [not_le.mp hneg]
        have hxcur : x < params.getD (i - 1) 0 := by
          rcases not_and_or.mp hmid with hc | hc
          · exact lt_of_not_le hc
          · exact absurd (lt_of_not_le hxp) hc
        refine ⟨_, rfl, div_nonneg (by linarith) (by linarith), ?_⟩
        rw [div_le_one hcur]
        linarith
      · exact ⟨0, rfl, by norm_num⟩
    · rw [if_neg hlast]
      have hiltn : i < n := by omega
      have hpp : params.getD (i - 1) 0 < params.getD (i - 2) 0 :=
        sd_getD_lt params hsd (i - 2) (i - 1) (by omega) (by omega)
      have hcn : params.getD i 0 < params.getD (i - 1) 0 :=
        sd_getD_lt params hsd (i - 1) i (by omega) (by omega)
      have hn0 : (0 : ℚ) ≤ params.getD i 0 :=
        hnn _ (getD_mem_of_lt params i (by omega))
      have hc0 : (0 : ℚ) ≤ params.getD (i - 1) 0 :=
        hnn _ (getD_mem_of_lt params (i - 1) (by omega))
      have hp0 : (0 : ℚ) < params.getD (i - 2) 0 := lt_of_le_of_lt hc0 hpp
      split_ifs with hxp hx0 hmid hint
      · refine ⟨_, rfl, div_nonneg (by linarith) (by linarith), ?_⟩
        rw [div_le_one hx0]
        exact hxp
      · exact ⟨0, rfl, by norm_num⟩
      · exact ⟨1, rfl, by norm_num⟩
      · refine ⟨_, rfl,
          div_nonneg (by linarith [hint.1]) (by linarith), ?_⟩
        rw [div_le_one (by linarith)]
        linarith [hint.2]
      · exact ⟨0, rfl, by norm_num⟩

/-- Number of evaluation levels read off the matrix shape, as the source
does with `sample_matrix.shape`. -/
def matLevels (mat : List (List ℝ)) : ℕ := (mat.headD []).length

/-- One level's column of a factor-by-level matrix (`matrix[:, level_idx]`). -/
def levelColumn (mat : List (List ℝ)) (j : ℕ) : List ℝ :=
  mat.map (fun row => row.getD j 0)

/-- Loop body of `TOPSISComprehensiveEvaluation.calculate_comprehensive_membership`
(src/modules/algorithm_layer/topsis_comprehensive_evaluation.py):
distance to the ideal-best point, `sqrt(sum(w_i * (x_i - 1)^2))`. -/
noncomputable def dPlusTE (w m : List ℝ) : ℝ :=
  Real.sqrt ((List.zipWith (fun wi mi => wi * (mi - 1) ^ 2) w m).sum)

/-- Loop body of the same function: distance to the ideal-worst point,
`sqrt(sum(w_i * x_i^2))`. -/
noncomputable def dMinusTE (w m : List ℝ) : ℝ :=
  Real.sqrt ((List.zipWith (fun wi mi => wi * mi ^ 2) w m).sum)

/-- Default uniform weights `[1.0 / num_factors] * num_factors`. -/
noncomputable def defaultWeights (n : ℕ) : List ℝ := List.replicate n (1 / (n : ℝ))

/-- Per-level D+ vector of one object's matrix. -/
noncomputable def dPlusList (mat : List (List ℝ)) (w : List ℝ) : List ℝ :=
  (List.range (matLevels mat)).map (fun j => dPlusTE w (levelColumn mat j))

/-- Per-level D- vector of one object's matrix. -/
noncomputable def dMinusList (mat : List (List ℝ)) (w : List ℝ) : List ℝ :=
  (List.range (matLevels mat)).map (fun j => dMinusTE w (levelColumn mat j))

/-- Embedding of
`TOPSISComprehensiveEvaluation.calculate_comprehensive_membership` for one
object: resolve default weights, check the weight count against the factor
count (`raise ValueError` becomes `Except.error`), then compute the D+ and
D- vectors over all levels. -/
noncomputable def calculate_comprehensive_membership (mat : List (List ℝ))
    (weights : Option (List ℝ)) : Except String (List ℝ × List ℝ) :=
  let w := weights.getD (defaultWeights mat.length)
  if w.length ≠ mat.length then
    Except.error "weight count must equal factor count"
  else Except.ok (dPlusList mat w, dMinusList mat w)

/-- Embedding of `TOPSISComprehensiveEvaluation.get_comprehensive_scores`:
`V = D- / (D+ + D-)` with the `np.divide(..., where=denominator != 0,
out=zeros)` guard, elementwise over levels. -/
noncomputable def get_comprehensive_scores (dp dm : List ℝ) : List ℝ :=
  List.zipWith (fun p m => if p + m = 0 then 0 else m / (p + m)) dp dm

/-- Embedding of
`TOPSISComprehensiveEvaluation.calculate_comprehensive_membership_scores`:
`U = V / sum(V)` when the sum is positive, otherwise the all-zero vector. -/
noncomputable def calculate_comprehensive_membership_scores (vs : List ℝ) : List ℝ :=
  if 0 < vs.sum then vs.map (fun s => s / vs.sum) else vs.map (fun _ => 0)

/-- Full V vector of the TOPSIS chain for one object. -/
noncomputable def topsisVList (mat : List (List ℝ)) (w : List ℝ) : List ℝ :=
  get_comprehensive_scores (dPlusList mat w) (dMinusList mat w)

/-- Full U vector of the TOPSIS chain for one object. -/
noncomputable def topsisUList (mat : List (List ℝ)) (w : List ℝ) : List ℝ :=
  calculate_comprehensive_membership_scores (topsisVList mat w)

/-- Loop body of the module-level `calculate_topsis_comprehensive_membership`
in membership_functions.py: D+ against the all-ones ideal vector. -/
noncomputable def dPlusMF (w m : List ℝ) : ℝ :=
  Real.sqrt ((List.zipWith (fun wi mi => wi * (mi - 1) ^ 2) w m).sum)

/-- Loop body of the same module-level function: D- written against the
all-zeros ideal vector, `sqrt(sum(w_i * (x_i - 0)^2))`. -/
noncomputable def dMinusMF (w m : List ℝ) : ℝ :=
  Real.sqrt ((List.zipWith (fun wi mi => wi * (mi - 0) ^ 2) w m).sum)

/-- Embedding of the module-level `calculate_topsis_comprehensive_membership`
(membership_functions.py) for one object: identical preamble to the class
method, with the D- distance phrased against the explicit zero vector. -/
noncomputable def calculate_topsis_comprehensive_membership (mat : List (List ℝ))
    (weights : Option (List ℝ)) : Except String (List ℝ × List ℝ) :=
  let w := weights.getD (defaultWeights mat.length)
  if w.length ≠ mat.length then
    Except.error "weight count must equal factor count"
  else Except.ok
    ((List.range (matLevels mat)).map (fun j => dPlusMF w (levelColumn mat j)),
     (List.range (matLevels mat)).map (fun j => dMinusMF w (levelColumn mat j)))

/-- Summing a list divided elementwise by a constant divides the sum. -/
theorem list_sum_map_div (l : List ℝ) (c : ℝ) :
    (l.map (fun s => s / c)).sum = l.sum / c := by
  induction l with
  | nil => simp
  | cons a t ih => simp [ih, add_div]

/-- A list of nonnegative reals with one positive entry has positive sum. -/
theorem sum_pos_of_exists_pos (l : List ℝ) (h0 : ∀ x ∈ l, 0 ≤ x)
    (hx : ∃ x ∈ l, 0 < x) : 0 < l.sum := by
  obtain ⟨x, hmem, hpos⟩ := hx
  have hle := List.single_le_sum h0 x hmem
  linarith

/-- Each relative-closeness score built from nonnegative distances lies in
[0, 1]. -/
theorem scores_bounds (dp dm : List ℝ) (hp : ∀ p ∈ dp, 0 ≤ p)
    (hm : ∀ m ∈ dm, 0 ≤ m) :
    ∀ v ∈ get_comprehensive_scores dp dm, 0 ≤ v ∧ v ≤ 1 := by
  induction dp generalizing dm with
  | nil => intro v hv; simp [get_comprehensive_scores] at hv
  | cons p dpt ih =>
    intro v hv
    cases dm with
    | nil => simp [get_comprehensive_scores] at hv
    | cons m dmt =>
      simp only [get_comprehensive_scores, List.zipWith_cons_cons,
        List.mem_cons] at hv
      rcases hv with rfl | hv
      · by_cases hz : p + m = 0
        · rw [if_pos hz]; norm_num
        · rw [if_neg hz]
          have hp0 := hp p (by simp)
          have hm0 := hm m (by simp)
          have hpos : 0 < p + m := lt_of_le_of_ne (by linarith) (Ne.symm hz)
          refine ⟨div_nonneg hm0 (le_of_lt hpos), ?_⟩
          rw [div_le_one hpos]
          linarith
      · exact ih dmt (fun q hq => hp q (List.mem_cons_of_mem _ hq))
          (fun q hq => hm q (List.mem_cons_of_mem _ hq)) v hv

/-- Every D+ entry is a square root, hence nonnegative. -/
theorem dPlusList_nonneg (mat : List (List ℝ)) (w : List ℝ) :
    ∀ p ∈ dPlusList mat w, 0 ≤ p := by
  intro p hp
  obtain ⟨j, _, rfl⟩ := List.mem_map.mp hp
  exact Real.sqrt_nonneg _

/-- Every D- entry is a square root, hence nonnegative. -/
theorem dMinusList_nonneg (mat : List (List ℝ)) (w : List ℝ) :
    ∀ m ∈ dMinusList mat w, 0 ≤ m := by
  intro m hm
  obtain ⟨j, _, rfl⟩ := List.mem_map.mp hm
  exact Real.sqrt_nonneg _

/-- Normalised comprehensive-membership entries lie in [0, 1] whenever the
scores are nonnegative. -/
theorem normalize_bounds (vs : List ℝ) (h : ∀ v ∈ vs, 0 ≤ v) :
    ∀ u ∈ calculate_comprehensive_membership_scores vs, 0 ≤ u ∧ u ≤ 1 := by
  intro u hu
  by_cases hs : 0 < vs.sum
  · simp only [calculate_comprehensive_membership_scores, if_pos hs] at hu
    obtain ⟨v, hv, rfl⟩ := List.mem_map.mp hu
    refine ⟨div_nonneg (h v hv) (le_of_lt hs), ?_⟩
    rw [div_le_one hs]
    exact List.single_le_sum h v hv
  · simp only [calculate_comprehensive_membership_scores, if_neg hs] at hu
    obtain ⟨v, hv, rfl⟩ := List.mem_map.mp hu
    norm_num

/-- C2: the TOPSIS chain computes the weighted square-root distances, the
guarded relative closeness and the guarded normalisation, with the uniform
default when no weights are supplied; whenever some closeness score is
positive the U vector sums to exactly 1. -/
theorem c2_topsis_chain (mat : List (List ℝ)) (w : List ℝ)
    (hw : w.length = mat.length) :
    calculate_comprehensive_membership mat (some w) =
      Except.ok (dPlusList mat w, dMinusList mat w)
    ∧ calculate_comprehensive_membership mat none =
        Except.ok (dPlusList mat (defaultWeights mat.length),
          dMinusList mat (defaultWeights mat.length))
    ∧ (∀ v ∈ topsisVList mat w, 0 ≤ v)
    ∧ ((∃ v ∈ topsisVList mat w, 0 < v) → (topsisUList mat w).sum = 1) := by
  have hvb : ∀ v ∈ topsisVList mat w, 0 ≤ v := fun v hv =>
    (scores_bounds (dPlusList mat w) (dMinusList mat w)
      (dPlusList_nonneg mat w) (dMinusList_nonneg mat w) v hv).1
  refine ⟨?_, ?_, hvb, ?_⟩
  · simp [calculate_comprehensive_membership, hw]
  · simp [calculate_comprehensive_membership, defaultWeights]
  · intro hex
    have hsum : 0 < (topsisVList mat w).sum :=
      sum_pos_of_exists_pos _ hvb hex
    simp only [topsisUList, calculate_comprehensive_membership_scores,
      if_pos hsum]
    rw [list_sum_map_div]
    exact div_self (ne_of_gt hsum)

/-- Witness for C2: the one-factor one-level matrix [[1]] with weight [1]
has V = [1], so the normalised U vector sums to 1. -/
theorem c2_topsis_chain_witness :
    ([(1 : ℝ)].length = [[(1 : ℝ)]].length) ∧
    (topsisUList [[(1 : ℝ)]] [(1 : ℝ)]).sum = 1 := by
  refine ⟨rfl, ?_⟩
  apply (c2_topsis_chain [[(1 : ℝ)]] [(1 : ℝ)] rfl).2.2.2
  have hzero : dPlusTE [(1 : ℝ)] [(1 : ℝ)] = 0 := by
    simp [dPlusTE]
  have hone : dMinusTE [(1 : ℝ)] [(1 : ℝ)] = 1 := by
    simp [dMinusTE]
  have hv : topsisVList [[(1 : ℝ)]] [(1 : ℝ)] = [1] := by
    show [if dPlusTE [(1 : ℝ)] [(1 : ℝ)] + dMinusTE [(1 : ℝ)] [(1 : ℝ)] = 0
        then (0 : ℝ)
        else dMinusTE [(1 : ℝ)] [(1 : ℝ)] /
          (dPlusTE [(1 : ℝ)] [(1 : ℝ)] + dMinusTE [(1 : ℝ)] [(1 : ℝ)])] = [1]
    rw [hzero, hone]
    norm_num
  rw [hv]
  exact ⟨1, by simp, one_pos⟩

/-- C10: the module-level TOPSIS distance routine and the class method
return identical D+ and D- vectors for every matrix and weight option,
because (x - 0)^2 = x^2. -/
theorem c10_topsis_distance_equiv (mat : List (List ℝ))
    (weights : Option (List ℝ)) :
    calculate_topsis_comprehensive_membership mat weights =
      calculate_comprehensive_membership mat weights := by
  have hd : dMinusMF = dMinusTE := by
    funext w m
    simp [dMinusMF, dMinusTE, sub_zero]
  have hp : dPlusMF = dPlusTE := rfl
  simp [calculate_topsis_comprehensive_membership,
    calculate_comprehensive_membership, dPlusList, dMinusList, hd, hp]

/-- C6 counterexample: with the strictly decreasing but negative thresholds
[-1,-2,-3], the middle-level hyperbolic branch at x = 5 returns -1/5,
outside [0, 1]. -/
theorem c6_counterexample :
    lower_bound_level_membership 5 [-1, -2, -3] 2 3 = Except.ok (-1 / 5)
    ∧ ¬ (0 ≤ (-1 / 5 : ℚ)) := by
  refine ⟨?_, by norm_num⟩
  norm_num [lower_bound_level_membership]

/-- C6 amended: with nonnegative strictly decreasing thresholds every
membership value lies in [0, 1], and for every matrix and weight list the
TOPSIS V and U values lie in [0, 1]. -/
theorem c6_range :
    (∀ (x : ℚ) (params : List ℚ) (i n : ℕ), strictlyDecreasing params →
      (∀ a ∈ params, 0 ≤ a) → params.length = n → 1 ≤ i → i ≤ n →
      ∃ y, lower_bound_level_membership x params i n = Except.ok y ∧
        0 ≤ y ∧ y ≤ 1)
    ∧ (∀ (mat : List (List ℝ)) (w : List ℝ), (∀ wi ∈ w, 0 ≤ wi) →
      (∀ row ∈ mat, ∀ m ∈ row, 0 ≤ m ∧ m ≤ 1) →
      (∀ v ∈ topsisVList mat w, 0 ≤ v ∧ v ≤ 1) ∧
      (∀ u ∈ topsisUList mat w, 0 ≤ u ∧ u ≤ 1)) := by
  constructor
  · intro x params i n hsd hnn hlen hi1 hin
    exact membership_range x params i n hsd hnn hlen hi1 hin
  · intro mat w hwnn hmat
    have hvb : ∀ v ∈ topsisVList mat w, 0 ≤ v ∧ v ≤ 1 :=
      scores_bounds (dPlusList mat w) (dMinusList mat w)
        (dPlusList_nonneg mat w) (dMinusList_nonneg mat w)
    exact ⟨hvb, normalize_bounds _ (fun v hv => (hvb v hv).1)⟩

/-- Witness for C6 amended: concrete instances of both halves — the
membership value of level 1 of [2,1] at x = 3 is in [0,1], and the V values
of matrix [[1]] with weight [1] are in [0,1]. -/
theorem c6_range_witness :
    (∃ y, lower_bound_level_membership 3 [2, 1] 1 2 = Except.ok y ∧
      0 ≤ y ∧ y ≤ 1)
    ∧ (∀ v ∈ topsisVList [[(1 : ℝ)]] [(1 : ℝ)], 0 ≤ v ∧ v ≤ 1) := by
  constructor
  · exact c6_range.1 3 [2, 1] 1 2 (by decide) (by decide) rfl
      (by decide) (by decide)
  · exact (c6_range.2 [[(1 : ℝ)]] [(1 : ℝ)] (by norm_num)
      (by norm_num)).1

/-- Hyperbolic branch expression `a_prev / x` (0 for x ≤ 0) taken above the
previous boundary in middle and last levels. -/
def hyperFormula (aprev x : ℚ) : ℚ := if 0 < x then aprev / x else 0

/-- Linear interpolation branch expression `(x - a_next)/(a_cur - a_next)`
taken between two adjacent boundaries. -/
def interpFormula (acur anext x : ℚ) : ℚ := (x - anext) / (acur - anext)

/-- Branch expression of the last level below its own boundary:
1 for x ≤ 0, otherwise `x / a_cur` (0 when a_cur is not positive). -/
def lastBelowFormula (acur x : ℚ) : ℚ :=
  if x ≤ 0 then 1 else if 0 < acur then x / acur else 0

/-- C7 amended: with nonnegative strictly decreasing thresholds the
membership function is continuous at every shared branch boundary: the value
returned at each boundary point agrees with the adjacent branch expression
evaluated at that same point. -/
theorem c7_boundary_continuity (params : List ℚ) (i n : ℕ)
    (hsd : strictlyDecreasing params) (hnn : ∀ a ∈ params, 0 ≤ a)
    (hlen : params.length = n) (hn2 : 2 ≤ n) (hi1 : 1 ≤ i) (hin : i ≤ n) :
    (i = 1 →
      lower_bound_level_membership (params.getD 0 0) params i n = Except.ok 1
      ∧ interpFormula (params.getD 0 0) (params.getD 1 0)
          (params.getD 0 0) = 1
      ∧ lower_bound_level_membership (params.getD 1 0) params i n =
          Except.ok 0
      ∧ interpFormula (params.getD 0 0) (params.getD 1 0)
          (params.getD 1 0) = 0)
    ∧ (1 < i → i < n →
      lower_bound_level_membership (params.getD (i - 2) 0) params i n =
          Except.ok 1
      ∧ hyperFormula (params.getD (i - 2) 0) (params.getD (i - 2) 0) = 1
      ∧ lower_bound_level_membership (params.getD (i - 1) 0) params i n =
          Except.ok 1
      ∧ interpFormula (params.getD (i - 1) 0) (params.getD i 0)
          (params.getD (i - 1) 0) = 1
      ∧ lower_bound_level_membership (params.getD i 0) params i n =
          Except.ok 0
      ∧ interpFormula (params.getD (i - 1) 0) (params.getD i 0)
          (params.getD i 0) = 0)
    ∧ (i = n →
      lower_bound_level_membership (params.getD (n - 2) 0) params i n =
          Except.ok 1
      ∧ hyperFormula (params.getD (n - 2) 0) (params.getD (n - 2) 0) = 1
      ∧ lower_bound_level_membership (params.getD (n - 1) 0) params i n =
          Except.ok 1
      ∧ lastBelowFormula (params.getD (n - 1) 0) (params.getD (n - 1) 0)
          = 1) := by
  have hguard : ¬ (i < 1 ∨ n < i) := by omega
  have hlen2 : ¬ params.length ≠ n := by omega
  refine ⟨?_, ?_, ?_⟩
  · intro hi
    subst hi
    have ha01 : params.getD 1 0 < params.getD 0 0 :=
      sd_getD_lt params hsd 0 1 (by omega) (by omega)
    have hfirst : ∀ z : ℚ, lower_bound_level_membership z params 1 n =
        (if params.getD 0 0 ≤ z then Except.ok 1
         else if params.getD 1 0 ≤ z ∧ z < params.getD 0 0 then
           Except.ok ((z - params.getD 1 0) /
             (params.getD 0 0 - params.getD 1 0))
         else Except.ok 0) := by
      intro z
      have hn1 : (1 : ℕ) < n := by omega
      simp only [lower_bound_level_membership]
      rw [if_neg hguard, if_neg hlen2]
      simp only [if_true, if_pos hn1]
    refine ⟨?_, ?_, ?_, ?_⟩
    · rw [hfirst, if_pos le_rfl]
    · rw [interpFormula, div_self (by linarith)]
    · rw [hfirst, if_neg (by linarith),
        if_pos ⟨le_rfl, ha01⟩, sub_self, zero_div]
    · rw [interpFormula, sub_self, zero_div]
  · intro hi1lt hiltn
    have hpp : params.getD (i - 1) 0 < params.getD (i - 2) 0 :=
      sd_getD_lt params hsd (i - 2) (i - 1) (by omega) (by omega)
    have hcn : params.getD i 0 < params.getD (i - 1) 0 :=
      sd_getD_lt params hsd (i - 1) i (by omega) (by omega)
    have hn0 : (0 : ℚ) ≤ params.getD i 0 :=
      hnn _ (getD_mem_of_lt params i (by omega))
    have hc0 : (0 : ℚ) < params.getD (i - 1) 0 := lt_of_le_of_lt hn0 hcn
    have hp0 : (0 : ℚ) < params.getD (i - 2) 0 := lt_trans hc0 hpp
    have hmid : ∀ z : ℚ, lower_bound_level_membership z params i n =
        (if params.getD (i - 2) 0 ≤ z then
           Except.ok (if 0 < z then params.getD (i - 2) 0 / z else 0)
         else if params.getD (i - 1) 0 ≤ z ∧ z < params.getD (i - 2) 0 then
           Except.ok 1
         else if params.getD i 0 ≤ z ∧ z < params.getD (i - 1) 0 then
           Except.ok ((z - params.getD i 0) /
             (params.getD (i - 1) 0 - params.getD i 0))
         else Except.ok 0) := by
      intro z
      simp only [lower_bound_level_membership]
      rw [if_neg hguard, if_neg hlen2, if_neg (by omega : ¬ i = 1),
        if_neg (by omega : ¬ i = n)]
    refine ⟨?_, ?_, ?_, ?_, ?_, ?_⟩
    · rw [hmid, if_pos le_rfl, if_pos hp0, div_self (ne_of_gt hp0)]
    · rw [hyperFormula, if_pos hp0, div_self (ne_of_gt hp0)]
    · rw [hmid, if_neg (by linarith), if_pos ⟨le_rfl, hpp⟩]
    · rw [interpFormula, div_self (by linarith)]
    · rw [hmid, if_neg (by linarith),
        if_neg (by intro hc; linarith [hc.1]),
        if_pos ⟨le_rfl, hcn⟩, sub_self, zero_div]
    · rw [interpFormula, sub_self, zero_div]
  · intro hi
    subst hi
    have hne1 : ¬ i = 1 → True := fun _ => trivial
    have hilast1 : ¬ (i = 1) := by omega
    have hpp : params.getD (i - 1) 0 < params.getD (i - 2) 0 :=
      sd_getD_lt params hsd (i - 2) (i - 1) (by omega) (by omega)
    have hc0 : (0 : ℚ) ≤ params.getD (i - 1) 0 :=
      hnn _ (getD_mem_of_lt params (i - 1) (by omega))
    have hp0 : (0 : ℚ) < params.getD (i - 2) 0 := lt_of_le_of_lt hc0 hpp
    have hlastev : ∀ z : ℚ, lower_bound_level_membership z params i i =
        (if params.getD (i - 2) 0 ≤ z then
           Except.ok (if 0 < z then params.getD (i - 2) 0 / z else 0)
         else if params.getD (i - 1) 0 ≤ z ∧ z < params.getD (i - 2) 0 then
           Except.ok 1
         else if z ≤ 0 then Except.ok 1
         else Except.ok (if 0 < params.getD (i - 1) 0 then
           z / params.getD (i - 1) 0 else 0)) := by
      intro z
      simp only [lower_bound_level_membership]
      rw [if_neg hguard, if_neg hlen2, if_neg hilast1]
      simp only [if_true]
    refine ⟨?_, ?_, ?_, ?_⟩
    · rw [hlastev, if_pos le_rfl, if_pos hp0, div_self (ne_of_gt hp0)]
    · rw [hyperFormula, if_pos hp0, div_self (ne_of_gt hp0)]
    · rw [hlastev, if_neg (by linarith), if_pos ⟨le_rfl, hpp⟩]
    · rw [lastBelowFormula]
      rcases lt_or_eq_of_le hc0 with hcpos | hczero
      · rw [if_neg (by linarith), if_pos hcpos, div_self (ne_of_gt hcpos)]
      · rw [if_pos (by linarith)]

/-- C7 counterexample: with the strictly decreasing but negative thresholds
[-1,-2], the last level jumps at the boundary x = -1: the branch taken there
returns 0 while the adjacent constant branch (taken just below, e.g. at
x = -3/2) is 1. -/
theorem c7_counterexample :
    lower_bound_level_membership (-1) [-1, -2] 2 2 = Except.ok 0
    ∧ lower_bound_level_membership (-3/2) [-1, -2] 2 2 = Except.ok 1
    ∧ (0 : ℚ) ≠ 1 := by
  refine ⟨?_, ?_, by norm_num⟩ <;> norm_num [lower_bound_level_membership]

/-- Witness for C7 amended: concrete boundary agreement for level 2 of the
thresholds [15,10,5,2]: membership is 1 at both x = 15 and x = 10 and 0 at
x = 5. -/
theorem c7_boundary_continuity_witness :
    strictlyDecreasing [15, 10, 5, 2] ∧
    lower_bound_level_membership 15 [15, 10, 5, 2] 2 4 = Except.ok 1 ∧
    lower_bound_level_membership 10 [15, 10, 5, 2] 2 4 = Except.ok 1 ∧
    lower_bound_level_membership 5 [15, 10, 5, 2] 2 4 = Except.ok 0 := by
  have h := (c7_boundary_continuity [15, 10, 5, 2] 2 4 (by decide) (by decide)
    rfl (by decide) (by decide) (by decide)).2.1 (by decide) (by decide)
  exact ⟨by decide, h.1, h.2.2.1, h.2.2.2.2.1⟩

/-- Maximum of a list in the sense of `np.max`: defined on nonempty lists
(the source only applies it to nonempty factor vectors); 0 on the empty
list, which the source never passes. -/
def listMax : List ℚ → ℚ
  | [] => 0
  | [a] => a
  | a :: b :: t => max a (listMax (b :: t))

/-- Minimum of a list in the sense of `np.min`; 0 on the empty list. -/
def listMin : List ℚ → ℚ
  | [] => 0
  | [a] => a
  | a :: b :: t => min a (listMin (b :: t))

/-- Every element is at most the list maximum. -/
theorem le_listMax : ∀ (l : List ℚ), ∀ x ∈ l, x ≤ listMax l := by
  intro l
  induction l with
  | nil => intro x hx; cases hx
  | cons a t ih =>
    intro x hx
    cases t with
    | nil =>
      rcases List.mem_cons.mp hx with rfl | hxt
      · exact le_of_eq rfl
      · cases hxt
    | cons b t2 =>
      rcases List.mem_cons.mp hx with rfl | hxt
      · exact le_max_left _ _
      · exact le_trans (ih x hxt) (le_max_right _ _)

/-- The list minimum is at most every element. -/
theorem listMin_le : ∀ (l : List ℚ), ∀ x ∈ l, listMin l ≤ x := by
  intro l
  induction l with
  | nil => intro x hx; cases hx
  | cons a t ih =>
    intro x hx
    cases t with
    | nil =>
      rcases List.mem_cons.mp hx with rfl | hxt
      · exact le_of_eq rfl
      · cases hxt
    | cons b t2 =>
      rcases List.mem_cons.mp hx with rfl | hxt
      · exact min_le_left _ _
      · exact le_trans (min_le_right _ _) (ih x hxt)

/-- The maximum of a nonempty list is one of its elements. -/
theorem listMax_mem : ∀ (l : List ℚ), l ≠ [] → listMax l ∈ l := by
  intro l
  induction l with
  | nil => intro h; exact absurd rfl h
  | cons a t ih =>
    intro _
    cases t with
    | nil => simp [listMax]
    | cons b t2 =>
      rcases le_total a (listMax (b :: t2)) with hle | hle
      · have : listMax (a :: b :: t2) = listMax (b :: t2) := by
          simp [listMax, max_eq_right hle]
        rw [this]
        exact List.mem_cons_of_mem _ (ih (by simp))
      · have : listMax (a :: b :: t2) = a := by
          simp [listMax, max_eq_left hle]
        rw [this]
        exact List.mem_cons_self _ _

/-- The minimum of a nonempty list is one of its elements. -/
theorem listMin_mem : ∀ (l : List ℚ), l ≠ [] → listMin l ∈ l := by
  intro l
  induction l with
  | nil => intro h; exact absurd rfl h
  | cons a t ih =>
    intro _
    cases t with
    | nil => simp [listMin]
    | cons b t2 =>
      rcases le_total a (listMin (b :: t2)) with hle | hle
      · have : listMin (a :: b :: t2) = a := by
          simp [listMin, min_eq_left hle]
        rw [this]
        exact List.mem_cons_self _ _
      · have : listMin (a :: b :: t2) = listMin (b :: t2) := by
          simp [listMin, min_eq_right hle]
        rw [this]
        exact List.mem_cons_of_mem _ (ih (by simp))

/-- Zipping with a function of the second argument only is a map over the
second list, given equal lengths. -/
theorem zipWith_snd_map (f : ℚ → ℚ) : ∀ (l1 l2 : List ℚ),
    l1.length = l2.length →
    List.zipWith (fun _ r => f r) l1 l2 = l2.map f := by
  intro l1
  induction l1 with
  | nil =>
    intro l2 h
    cases l2 with
    | nil => rfl
    | cons b t2 => simp at h
  | cons a t ih =>
    intro l2 h
    cases l2 with
    | nil => simp at h
    | cons b t2 => simp [ih t2 (by simpa using h)]

/-- Zipping two equal-length lists with a constant function is a constant
map over the first. -/
theorem zipWith_const (c : ℚ) : ∀ (l1 l2 : List ℚ),
    l1.length = l2.length →
    List.zipWith (fun _ _ => c) l1 l2 = l1.map (fun _ => c) := by
  intro l1
  induction l1 with
  | nil => intro l2 _; rfl
  | cons a t ih =>
    intro l2 h
    cases l2 with
    | nil => simp at h
    | cons b t2 => simp [ih t2 (by simpa using h)]

/-- Level column of a rational factor-by-level matrix. -/
def levelColumnQ (mat : List (List ℚ)) (j : ℕ) : List ℚ :=
  mat.map (fun row => row.getD j 0)

/-- Number of levels read off the rational matrix shape. -/
def matLevelsQ (mat : List (List ℚ)) : ℕ := (mat.headD []).length

/-- Loop body of `VIKORComprehensiveEvaluation.calculate_comprehensive_scores`
(src/modules/algorithm_layer/vikor_comprehensive_evaluation.py):
group utility `S = np.sum(weights * (1 - memberships))`. -/
def vikorS (w m : List ℚ) : ℚ :=
  (List.zipWith (fun wi mi => wi * (1 - mi)) w m).sum

/-- Loop body of the same function: individual regret
`R = np.max(weights * (1 - memberships))`. -/
def vikorR (w m : List ℚ) : ℚ :=
  listMax (List.zipWith (fun wi mi => wi * (1 - mi)) w m)

/-- Per-level S vector of one object's matrix. -/
def vikorSList (mat : List (List ℚ)) (w : List ℚ) : List ℚ :=
  (List.range (matLevelsQ mat)).map (fun j => vikorS w (levelColumnQ mat j))

/-- Per-level R vector of one object's matrix. -/
def vikorRList (mat : List (List ℚ)) (w : List ℚ) : List ℚ :=
  (List.range (matLevelsQ mat)).map (fun j => vikorR w (levelColumnQ mat j))

/-- Q computation of the VIKOR source: S* = min S, S- = max S, R* = min R,
R- = max R, then the four-way numpy branch on vanishing denominators
(`S_diff == 0 and R_diff == 0`, `S_diff == 0`, `R_diff == 0`, general). -/
def vikorQ (S R : List ℚ) (v : ℚ) : List ℚ :=
  let Sstar := listMin S
  let Sminus := listMax S
  let Rstar := listMin R
  let Rminus := listMax R
  let Sdiff := Sminus - Sstar
  let Rdiff := Rminus - Rstar
  if Sdiff = 0 ∧ Rdiff = 0 then S.map (fun _ => 0)
  else if Sdiff = 0 then
    List.zipWith (fun _ r => v * 0 + (1 - v) * ((r - Rstar) / Rdiff)) S R
  else if Rdiff = 0 then
    List.zipWith (fun s _ => v * ((s - Sstar) / Sdiff) + (1 - v) * 0) S R
  else
    List.zipWith (fun s r =>
      v * ((s - Sstar) / Sdiff) + (1 - v) * ((r - Rstar) / Rdiff)) S R

/-- Rational default uniform weights `[1.0 / num_factors] * num_factors`. -/
def weightsResolveQ (n : ℕ) (weights : Option (List ℚ)) : List ℚ :=
  weights.getD (List.replicate n (1 / (n : ℚ)))

/-- Embedding of
`VIKORComprehensiveEvaluation.calculate_comprehensive_scores` for one
object: resolve default weights, check the weight count (`raise ValueError`
becomes `Except.error`), compute the S and R vectors over all levels and
the branch-guarded Q vector.  The source performs no validation of the
strategy weight `v`. -/
def calculate_comprehensive_scores (mat : List (List ℚ))
    (weights : Option (List ℚ)) (v : ℚ) :
    Except String (List ℚ × List ℚ × List ℚ) :=
  let w := weightsResolveQ mat.length weights
  if w.length ≠ mat.length then
    Except.error "weight count must equal factor count"
  else Except.ok (vikorSList mat w, vikorRList mat w,
    vikorQ (vikorSList mat w) (vikorRList mat w) v)

/-- The `v: float = 0.5` default parameter of the source signature,
embedded as a wrapper fixing v = 1/2. -/
def calculate_comprehensive_scores_default_v (mat : List (List ℚ))
    (weights : Option (List ℚ)) :
    Except String (List ℚ × List ℚ × List ℚ) :=
  calculate_comprehensive_scores mat weights (1/2)

/-- C3: VIKOR computes the S, R and branch-guarded Q vectors; the four-way
numpy branch equals the per-term guarded formula, and when all S are equal
while R takes two distinct values, Q collapses to the pure (1-v)-weighted
R term. -/
theorem c3_vikor_spec (mat : List (List ℚ)) (w : List ℚ) (v : ℚ)
    (hw : w.length = mat.length) :
    calculate_comprehensive_scores mat (some w) v =
      Except.ok (vikorSList mat w, vikorRList mat w,
        vikorQ (vikorSList mat w) (vikorRList mat w) v)
    ∧ (∀ (S R : List ℚ), S.length = R.length →
        vikorQ S R v = List.zipWith (fun s r =>
          v * (if listMax S - listMin S = 0 then 0
               else (s - listMin S) / (listMax S - listMin S)) +
          (1 - v) * (if listMax R - listMin R = 0 then 0
               else (r - listMin R) / (listMax R - listMin R))) S R)
    ∧ (∀ (S R : List ℚ), S.length = R.length →
        (∀ s1 ∈ S, ∀ s2 ∈ S, s1 = s2) →
        (∃ r1 ∈ R, ∃ r2 ∈ R, r1 ≠ r2) →
        vikorQ S R v = R.map (fun r =>
          (1 - v) * ((r - listMin R) / (listMax R - listMin R)))) := by
  refine ⟨?_, ?_, ?_⟩
  · simp [calculate_comprehensive_scores, weightsResolveQ, hw]
  · intro S R hlen
    by_cases hS : listMax S - listMin S = 0
    · by_cases hR : listMax R - listMin R = 0
      · simp only [vikorQ, if_pos (And.intro hS hR), if_pos hS, if_pos hR,
          mul_zero, add_zero]
        exact (zipWith_const 0 S R hlen).symm
      · have h12 : ¬ (listMax S - listMin S = 0 ∧
            listMax R - listMin R = 0) := fun hc => hR hc.2
        simp only [vikorQ, if_neg h12, if_pos hS, if_neg hR]
    · have h12 : ¬ (listMax S - listMin S = 0 ∧
          listMax R - listMin R = 0) := fun hc => hS hc.1
      by_cases hR : listMax R - listMin R = 0
      · simp only [vikorQ, if_neg h12, if_neg hS, if_pos hR]
      · simp only [vikorQ, if_neg h12, if_neg hS, if_neg hR]
  · intro S R hlen hallS hexR
    obtain ⟨r1, hr1, r2, hr2, hne⟩ := hexR
    have hRne : R ≠ [] := by
      intro h
      subst h
      cases hr1
    have hSne : S ≠ [] := by
      intro h
      subst h
      simp at hlen
      exact hRne (List.length_eq_zero.mp hlen.symm)
    have hS0 : listMax S - listMin S = 0 :=
      sub_eq_zero.mpr (hallS _ (listMax_mem S hSne) _ (listMin_mem S hSne))
    have hR0 : ¬ (listMax R - listMin R = 0) := by
      intro h
      have heq : listMax R = listMin R := sub_eq_zero.mp h
      have h1a := le_listMax R r1 hr1
      have h1b := listMin_le R r1 hr1
      have h2a := le_listMax R r2 hr2
      have h2b := listMin_le R r2 hr2
      exact hne (by linarith)
    simp only [vikorQ]
    rw [if_neg (fun hc => hR0 hc.2), if_pos hS0,
      zipWith_snd_map (fun r => v * 0 +
        (1 - v) * ((r - listMin R) / (listMax R - listMin R))) S R hlen]
    simp only [mul_zero, zero_add]

/-- Witness for C3: the concrete matrix [[0,1],[1,0]] with weights
[1/2,1/2] and v = 1/3 passes the weight check and the chain returns the
S, R, Q triple. -/
theorem c3_vikor_spec_witness :
    ([(1 : ℚ)/2, 1/2].length = [[(0 : ℚ), 1], [1, 0]].length) ∧
    calculate_comprehensive_scores [[(0 : ℚ), 1], [1, 0]]
        (some [1/2, 1/2]) (1/3) =
      Except.ok (vikorSList [[(0 : ℚ), 1], [1, 0]] [1/2, 1/2],
        vikorRList [[(0 : ℚ), 1], [1, 0]] [1/2, 1/2],
        vikorQ (vikorSList [[(0 : ℚ), 1], [1, 0]] [1/2, 1/2])
          (vikorRList [[(0 : ℚ), 1], [1, 0]] [1/2, 1/2]) (1/3)) :=
  ⟨rfl, (c3_vikor_spec [[(0 : ℚ), 1], [1, 0]] [1/2, 1/2] (1/3) rfl).1⟩

/-- C8 counterexample: the strategy weight is not validated; with v = 2,
far outside [0,1], VIKOR still returns a result (S = R = [1,0],
Q = [2·1 + (1-2)·1, 0] = [1,0]) instead of failing. -/
theorem c8_counterexample :
    calculate_comprehensive_scores [[(0 : ℚ), 1]] (some [1]) 2 =
      Except.ok ([1, 0], [1, 0], [1, 0]) := by
  have hS : vikorSList [[(0 : ℚ), 1]] [1] = [1, 0] := by
    show [vikorS [1] (levelColumnQ [[(0 : ℚ), 1]] 0),
          vikorS [1] (levelColumnQ [[(0 : ℚ), 1]] 1)] = [1, 0]
    norm_num [vikorS, levelColumnQ]
  have hR : vikorRList [[(0 : ℚ), 1]] [1] = [1, 0] := by
    show [vikorR [1] (levelColumnQ [[(0 : ℚ), 1]] 0),
          vikorR [1] (levelColumnQ [[(0 : ℚ), 1]] 1)] = [1, 0]
    norm_num [vikorR, levelColumnQ, listMax]
  have hQ : vikorQ [1, 0] [1, 0] 2 = [1, 0] := by
    norm_num [vikorQ, listMax, listMin, min_def, max_def]
  simp only [calculate_comprehensive_scores, weightsResolveQ, Option.getD]
  rw [if_neg (by norm_num)]
  rw [hS, hR, hQ]

/-- C8 amended: v defaults to 1/2, and the source performs no range check
on v: for every valid weight vector and every v whatsoever the computation
succeeds with a result. -/
theorem c8_no_v_validation :
    (∀ (mat : List (List ℚ)) (weights : Option (List ℚ)),
      calculate_comprehensive_scores_default_v mat weights =
        calculate_comprehensive_scores mat weights (1/2))
    ∧ (∀ (mat : List (List ℚ)) (w : List ℚ) (v : ℚ),
      w.length = mat.length →
      ∃ res, calculate_comprehensive_scores mat (some w) v =
        Except.ok res) := by
  refine ⟨fun mat weights => rfl, ?_⟩
  intro mat w v hw
  refine ⟨(vikorSList mat w, vikorRList mat w,
    vikorQ (vikorSList mat w) (vikorRList mat w) v), ?_⟩
  simp [calculate_comprehensive_scores, weightsResolveQ, hw]

/-- Witness for C8 amended: a concrete matrix and weight vector on which
the computation succeeds even with v = 2 outside [0,1]. -/
theorem c8_no_v_validation_witness :
    ([(1 : ℚ)].length = [[(0 : ℚ), 1]].length) ∧
    ∃ res, calculate_comprehensive_scores [[(0 : ℚ), 1]] (some [1]) 2 =
      Except.ok res :=
  ⟨rfl, c8_no_v_validation.2 [[(0 : ℚ), 1]] [1] 2 rfl⟩
